import Mathlib

/-!
Verification of the core logic of the FPL mini-league forfeits dashboard
(`src/app.py`): the last-place resolver `compute_last_by_gw` and the
overview aggregator `merge_overview`.

The embedding models pandas DataFrames as Lean lists of records:
a row of `gw_points_df` is a `RoundScore`, a row of `entries_df` is an
`Entry`, a row of the resolver's output is a `RoundResult`, the overrides
dict is a function `Int → Option Override`, and `forfeits_df` is a list of
`(entry, forfeits)` pairs.  Pandas `.min()` on a series is `seriesMin`
(fold of `min` over the values), a boolean-mask filter is `List.filter`,
a left merge on a key is a lookup (expanding duplicates of the right key,
as pandas does), and Python's `sorted` is `List.insertionSort (· ≤ ·)`.
-/

/-- A row of `gw_points_df` as built by `build_gw_points`:
one (member, gameweek) score record. -/
structure RoundScore where
  entry : Int
  event : Int
  gw_points : Int
  total_points : Int
  deriving Repr, DecidableEq

/-- A value of the overrides dict as produced by `load_overrides`:
an action string and a free-text note. -/
structure Override where
  action : String
  note : String
  deriving Repr, DecidableEq

/-- A row of the DataFrame returned by `compute_last_by_gw`. -/
structure RoundResult where
  event : Int
  min_points : Option Int
  last_entries : List Int
  reason : Option String
  deriving Repr, DecidableEq

/-- A row of `entries_df` as built by `get_all_entries`. -/
structure Entry where
  entry : Int
  entry_name : String
  player_name : String
  deriving Repr, DecidableEq

/-- A row of the overview DataFrame returned by `merge_overview`.
`forfeits` is `Option String` because the pandas left merge leaves
`NaN` (here `none`) where the right side has no matching key. -/
structure OverviewRow where
  entry : Int
  entry_name : String
  player_name : String
  times_last : Nat
  last_gws : List Int
  forfeits : Option String
  deriving Repr, DecidableEq

/-- Pandas `Series.min()`: `none` on an empty series, otherwise the fold
of `min` over the values. -/
def seriesMin : List Int → Option Int
  | [] => none
  | x :: xs => some (xs.foldl min x)

/-- The filter `gw_points_df[gw_points_df["event"] == gw]` in
`compute_last_by_gw`. -/
def subFor (s : List RoundScore) (gw : Int) : List RoundScore :=
  s.filter (fun r => r.event == gw)

/-- The expression `sub[sub["gw_points"] == min_pts]["entry"].tolist()` in
`compute_last_by_gw`. -/
def lastEntriesFor (s : List RoundScore) (gw : Int) (min_pts : Int) : List Int :=
  ((subFor s gw).filter (fun r => r.gw_points == min_pts)).map RoundScore.entry

/-- The body of the per-gameweek loop of `compute_last_by_gw`
(src/app.py lines 138-158).  `sub.empty` is the case where `seriesMin`
of the `gw_points` column is `none`; otherwise the override for `gw`, if
present, is applied: `eject` and `skip` clear the tied-last list and set
the reason, and any other action (the `else` branch of the source, which
the source comments as `'none' means normal forfeits`) leaves the
computed list with reason `none`. -/
def computeRound (s : List RoundScore) (ovs : Int → Option Override) (gw : Int) : RoundResult :=
  match seriesMin ((subFor s gw).map RoundScore.gw_points) with
  | none => { event := gw, min_points := none, last_entries := [], reason := some "no-data" }
  | some min_pts =>
    match ovs gw with
    | none =>
      { event := gw, min_points := some min_pts,
        last_entries := lastEntriesFor s gw min_pts, reason := none }
    | some ov =>
      if ov.action == "eject" then
        { event := gw, min_points := some min_pts, last_entries := [], reason := some "ejected" }
      else if ov.action == "skip" then
        { event := gw, min_points := some min_pts, last_entries := [], reason := some "skipped" }
      else
        { event := gw, min_points := some min_pts,
          last_entries := lastEntriesFor s gw min_pts, reason := none }

/-- `compute_last_by_gw` (src/app.py lines 132-159): one `RoundResult`
for each `gw` in Python's `range(gw_from, gw_to + 1)`. -/
def compute_last_by_gw (gw_points_df : List RoundScore) (gw_from gw_to : Int)
    (overrides : Int → Option Override) : List RoundResult :=
  (List.range (gw_to + 1 - gw_from).toNat).map
    (fun i : Nat => computeRound gw_points_df overrides (gw_from + (i : Int)))

/-- The `last_expanded` list of `merge_overview` (src/app.py lines
163-168): every row whose reason is not `ejected`/`skipped`/`no-data`
contributes one `(entry, event)` pair per tied-last entry. -/
def last_expanded (last_df : List RoundResult) : List (Int × Int) :=
  (last_df.filter (fun row =>
      !(row.reason == some "ejected" || row.reason == some "skipped"
        || row.reason == some "no-data"))).flatMap
    (fun row => row.last_entries.map (fun e => (e, row.event)))

/-- `merge_overview` (src/app.py lines 161-181).  Per entries row:
`times_last` is the group count of that entry in `last_expanded`
(`fillna(0)` when absent), `last_gws` the ascending sort of its events
(`[]` when absent), and `forfeits` comes from the left merge with
`forfeits_df` — every matching right-hand row yields an output row, no
match yields `none` (pandas `NaN`), and when `forfeits_df` is empty the
merge is skipped and the column is set to `""` for everyone. -/
def merge_overview (entries_df : List Entry) (last_df : List RoundResult)
    (forfeits_df : List (Int × String)) : List OverviewRow :=
  let last_map := last_expanded last_df
  entries_df.flatMap (fun m =>
    let mine := last_map.filter (fun p => p.1 == m.entry)
    let tl := mine.length
    let lg := List.insertionSort (· ≤ ·) (mine.map Prod.snd)
    if forfeits_df.isEmpty then
      [{ entry := m.entry, entry_name := m.entry_name, player_name := m.player_name,
         times_last := tl, last_gws := lg, forfeits := some "" }]
    else
      match forfeits_df.filter (fun f => f.1 == m.entry) with
      | [] =>
        [{ entry := m.entry, entry_name := m.entry_name, player_name := m.player_name,
           times_last := tl, last_gws := lg, forfeits := none }]
      | fs =>
        fs.map (fun f =>
          { entry := m.entry, entry_name := m.entry_name, player_name := m.player_name,
            times_last := tl, last_gws := lg, forfeits := some f.2 }))

/-! Helper lemmas about `seriesMin` and the shape of the resolver output. -/

theorem foldl_min_le_init (xs : List Int) (a : Int) : xs.foldl min a ≤ a := by
  induction xs generalizing a with
  | nil => simp
  | cons x xs ih => exact le_trans (ih (min a x)) (min_le_left a x)

theorem foldl_min_le_mem (xs : List Int) (a x : Int) (hx : x ∈ xs) : xs.foldl min a ≤ x := by
  induction xs generalizing a with
  | nil => cases hx
  | cons y ys ih =>
    rcases List.mem_cons.mp hx with h | h
    · subst h
      exact le_trans (foldl_min_le_init ys (min a x)) (min_le_right a x)
    · exact ih (min a y) h

theorem foldl_min_mem (xs : List Int) (a : Int) : xs.foldl min a = a ∨ xs.foldl min a ∈ xs := by
  induction xs generalizing a with
  | nil => left; rfl
  | cons x xs ih =>
    show List.foldl min (min a x) xs = a ∨ List.foldl min (min a x) xs ∈ x :: xs
    rcases ih (min a x) with h | h
    · rw [h]
      rcases min_choice a x with hm | hm
      · left; exact hm
      · right; rw [hm]; exact List.mem_cons_self x xs
    · right; exact List.mem_cons_of_mem _ h

/-- The series minimum is attained and is a lower bound. -/
theorem seriesMin_spec (l : List Int) (m : Int) (h : seriesMin l = some m) :
    m ∈ l ∧ ∀ x ∈ l, m ≤ x := by
  match l with
  | [] => simp [seriesMin] at h
  | x :: xs =>
    simp only [seriesMin, Option.some.injEq] at h
    subst h
    refine ⟨?_, ?_⟩
    · rcases foldl_min_mem xs x with h | h
      · rw [h]; exact List.mem_cons_self x xs
      · exact List.mem_cons_of_mem _ h
    · intro y hy
      rcases List.mem_cons.mp hy with h | h
      · rw [h]; exact foldl_min_le_init xs x
      · exact foldl_min_le_mem xs x y h

theorem seriesMin_eq_none (l : List Int) : seriesMin l = none ↔ l = [] := by
  cases l <;> simp [seriesMin]

theorem seriesMin_isSome (l : List Int) (hl : l ≠ []) : ∃ m, seriesMin l = some m := by
  cases h : seriesMin l with
  | none => exact absurd ((seriesMin_eq_none l).mp h) hl
  | some m => exact ⟨m, rfl⟩

/-- Membership in `subFor` unfolded. -/
theorem mem_subFor (s : List RoundScore) (g : Int) (r : RoundScore) :
    r ∈ subFor s g ↔ r ∈ s ∧ r.event = g := by
  simp [subFor, List.mem_filter]

/-- Every branch of `computeRound` records the round it was computed for. -/
theorem computeRound_event (s : List RoundScore) (ovs : Int → Option Override) (g : Int) :
    (computeRound s ovs g).event = g := by
  unfold computeRound
  cases seriesMin ((subFor s g).map RoundScore.gw_points) with
  | none => rfl
  | some m =>
    cases ovs g with
    | none => rfl
    | some ov =>
      by_cases h1 : ov.action == "eject"
      · simp [h1]
      · by_cases h2 : ov.action == "skip" <;> simp [h1, h2]

/-- The resolver's row for round `g` is `computeRound` at `g`. -/
theorem mem_compute_last_by_gw (s : List RoundScore) (ovs : Int → Option Override)
    (f t g : Int) (h1 : f ≤ g) (h2 : g ≤ t) :
    computeRound s ovs g ∈ compute_last_by_gw s f t ovs := by
  have hlt : (g - f).toNat < (t + 1 - f).toNat := by omega
  have heq : f + ((g - f).toNat : Int) = g := by omega
  unfold compute_last_by_gw
  refine List.mem_map.mpr ⟨(g - f).toNat, List.mem_range.mpr hlt, ?_⟩
  rw [heq]

/-- Every row of the resolver output is `computeRound` at some in-range round. -/
theorem compute_last_by_gw_mem_iff (s : List RoundScore) (ovs : Int → Option Override)
    (f t : Int) (res : RoundResult) :
    res ∈ compute_last_by_gw s f t ovs ↔ ∃ g, f ≤ g ∧ g ≤ t ∧ res = computeRound s ovs g := by
  constructor
  · intro h
    unfold compute_last_by_gw at h
    rcases List.mem_map.mp h with ⟨i, hi, hres⟩
    rw [List.mem_range] at hi
    exact ⟨f + (i : Int), by omega, by omega, hres.symm⟩
  · rintro ⟨g, hg1, hg2, rfl⟩
    exact mem_compute_last_by_gw s ovs f t g hg1 hg2

/-- A row of the resolver output whose `event` field is `g` is exactly
`computeRound` at `g`. -/
theorem result_for_round (s : List RoundScore) (ovs : Int → Option Override)
    (f t g : Int) (res : RoundResult)
    (hres : res ∈ compute_last_by_gw s f t ovs) (hev : res.event = g) :
    res = computeRound s ovs g := by
  rcases (compute_last_by_gw_mem_iff s ovs f t res).mp hres with ⟨g', _, _, rfl⟩
  rw [computeRound_event s ovs g'] at hev
  rw [hev]

/-! Characterizing the branches of `computeRound`. -/

theorem subFor_eq_nil_iff (s : List RoundScore) (g : Int) :
    subFor s g = [] ↔ ∀ r ∈ s, r.event ≠ g := by
  rw [subFor, List.filter_eq_nil_iff]
  simp

/-- A round with no matching score rows resolves to the `no-data` result,
whatever the overrides say. -/
theorem computeRound_nodata (s : List RoundScore) (ovs : Int → Option Override) (g : Int)
    (hs : ∀ r ∈ s, r.event ≠ g) :
    computeRound s ovs g =
      { event := g, min_points := none, last_entries := [], reason := some "no-data" } := by
  have hsub : subFor s g = [] := (subFor_eq_nil_iff s g).mpr hs
  unfold computeRound
  rw [hsub]
  rfl

theorem seriesMin_subFor_isSome (s : List RoundScore) (g : Int)
    (hs : ∃ r ∈ s, r.event = g) :
    ∃ m, seriesMin ((subFor s g).map RoundScore.gw_points) = some m := by
  rcases hs with ⟨r, hr, hev⟩
  have hsub : subFor s g ≠ [] := by
    intro hnil
    exact absurd hev ((subFor_eq_nil_iff s g).mp hnil r hr)
  cases h : seriesMin ((subFor s g).map RoundScore.gw_points) with
  | none =>
    rw [seriesMin_eq_none, List.map_eq_nil_iff] at h
    exact absurd h hsub
  | some m => exact ⟨m, rfl⟩

/-- The minimum the resolver computes is attained at some matching row
and bounds every matching row. -/
theorem seriesMin_subFor_spec (s : List RoundScore) (g m : Int)
    (hm : seriesMin ((subFor s g).map RoundScore.gw_points) = some m) :
    (∃ r ∈ s, r.event = g ∧ r.gw_points = m) ∧
      (∀ r ∈ s, r.event = g → m ≤ r.gw_points) := by
  rcases seriesMin_spec _ _ hm with ⟨hmem, hle⟩
  constructor
  · rcases List.mem_map.mp hmem with ⟨r, hr, hpts⟩
    rcases (mem_subFor s g r).mp hr with ⟨hrs, hev⟩
    exact ⟨r, hrs, hev, hpts⟩
  · intro r hr hev
    exact hle r.gw_points (List.mem_map_of_mem _ ((mem_subFor s g r).mpr ⟨hr, hev⟩))

theorem mem_lastEntriesFor (s : List RoundScore) (g m e : Int) :
    e ∈ lastEntriesFor s g m ↔ ∃ r ∈ s, r.event = g ∧ r.gw_points = m ∧ r.entry = e := by
  simp only [lastEntriesFor, List.mem_map, List.mem_filter, mem_subFor, subFor,
    beq_iff_eq]
  constructor
  · rintro ⟨r, ⟨⟨hrs, hev⟩, hpts⟩, hent⟩
    exact ⟨r, hrs, hev, hpts, hent⟩
  · rintro ⟨r, hrs, hev, hpts, hent⟩
    exact ⟨r, ⟨⟨hrs, hev⟩, hpts⟩, hent⟩

theorem lastEntriesFor_ne_nil (s : List RoundScore) (g m : Int)
    (hm : seriesMin ((subFor s g).map RoundScore.gw_points) = some m) :
    lastEntriesFor s g m ≠ [] := by
  rcases (seriesMin_subFor_spec s g m hm).1 with ⟨r, hrs, hev, hpts⟩
  exact List.ne_nil_of_mem ((mem_lastEntriesFor s g m r.entry).mpr ⟨r, hrs, hev, hpts, rfl⟩)

/-- With scores present and no override (or any override whose action is
neither `eject` nor `skip`), the resolver keeps the computed minimum and
tie list and leaves the reason unset. -/
theorem computeRound_normal (s : List RoundScore) (ovs : Int → Option Override) (g m : Int)
    (hm : seriesMin ((subFor s g).map RoundScore.gw_points) = some m)
    (hov : ∀ ov, ovs g = some ov → ov.action ≠ "eject" ∧ ov.action ≠ "skip") :
    computeRound s ovs g =
      { event := g, min_points := some m,
        last_entries := lastEntriesFor s g m, reason := none } := by
  unfold computeRound
  rw [hm]
  cases ho : ovs g with
  | none => rfl
  | some ov =>
    rcases hov ov ho with ⟨h1, h2⟩
    simp [h1, h2]

theorem computeRound_eject (s : List RoundScore) (ovs : Int → Option Override) (g m : Int)
    (ov : Override) (hm : seriesMin ((subFor s g).map RoundScore.gw_points) = some m)
    (ho : ovs g = some ov) (ha : ov.action = "eject") :
    computeRound s ovs g =
      { event := g, min_points := some m, last_entries := [], reason := some "ejected" } := by
  unfold computeRound
  rw [hm, ho]
  simp [ha]

theorem computeRound_skip (s : List RoundScore) (ovs : Int → Option Override) (g m : Int)
    (ov : Override) (hm : seriesMin ((subFor s g).map RoundScore.gw_points) = some m)
    (ho : ovs g = some ov) (ha : ov.action = "skip") :
    computeRound s ovs g =
      { event := g, min_points := some m, last_entries := [], reason := some "skipped" } := by
  unfold computeRound
  rw [hm, ho]
  simp [ha]

/-- `computeRound` reads the overrides mapping only at its own round. -/
theorem computeRound_congr_ovs (s : List RoundScore) (ovs ovs' : Int → Option Override)
    (g : Int) (h : ovs g = ovs' g) : computeRound s ovs g = computeRound s ovs' g := by
  unfold computeRound
  rw [h]

/-! Claim theorems about the resolver. -/

/-- C8: the resolver returns exactly one `RoundResult` per round in
`[gw_from, gw_to]` inclusive, ordered ascending by round, it is total
over any well-formed input, and when `gw_from > gw_to` it returns the
empty sequence. -/
theorem claim_resolver_shape (s : List RoundScore) (ovs : Int → Option Override) (f t : Int) :
    (compute_last_by_gw s f t ovs).length = (t + 1 - f).toNat ∧
    ((compute_last_by_gw s f t ovs).map RoundResult.event =
        (List.range (t + 1 - f).toNat).map (fun i : Nat => f + (i : Int))) ∧
    (∀ g : Int, f ≤ g → g ≤ t →
        ((compute_last_by_gw s f t ovs).filter (fun res => res.event == g)).length = 1) ∧
    List.Sorted (· < ·) ((compute_last_by_gw s f t ovs).map RoundResult.event) ∧
    (t < f → compute_last_by_gw s f t ovs = []) := by
  have hev : (compute_last_by_gw s f t ovs).map RoundResult.event =
      (List.range (t + 1 - f).toNat).map (fun i : Nat => f + (i : Int)) := by
    unfold compute_last_by_gw
    rw [List.map_map]
    exact List.map_congr_left (fun i _ => computeRound_event s ovs (f + (i : Int)))
  have hsorted : List.Sorted (· < ·)
      ((List.range (t + 1 - f).toNat).map (fun i : Nat => f + (i : Int))) := by
    refine List.Pairwise.map _ (fun a b hab => ?_) (List.pairwise_lt_range _)
    omega
  refine ⟨?_, hev, ?_, hev ▸ hsorted, ?_⟩
  · have := congrArg List.length hev
    simpa using this
  · intro g hg1 hg2
    have hcount : ((compute_last_by_gw s f t ovs).filter (fun res => res.event == g)).length
        = ((compute_last_by_gw s f t ovs).map RoundResult.event).count g := by
      rw [← List.countP_eq_length_filter, List.count, List.countP_map]
      rfl
    rw [hcount, hev]
    have hnd : ((List.range (t + 1 - f).toNat).map (fun i : Nat => f + (i : Int))).Nodup :=
      hsorted.nodup
    have hmem : g ∈ (List.range (t + 1 - f).toNat).map (fun i : Nat => f + (i : Int)) := by
      refine List.mem_map.mpr ⟨(g - f).toNat, List.mem_range.mpr (by omega), by omega⟩
    exact List.count_eq_one_of_mem hnd hmem
  · intro hlt
    unfold compute_last_by_gw
    have : (t + 1 - f).toNat = 0 := by omega
    rw [this]
    rfl

/-- Witness for C8 at a concrete input, exercising in particular the
empty output for a reversed range. -/
theorem claim_resolver_shape_witness :
    compute_last_by_gw [⟨7, 1, 3, 3⟩] 3 1 (fun _ => none) = [] :=
  (claim_resolver_shape [⟨7, 1, 3, 3⟩] (fun _ => none) 3 1).2.2.2.2 (by omega)

/-- C1: for a round in range with at least one score row and no
effective override (absent, or present with action `none`), the
resolver's row for that round has `min_points` equal to the true
minimum of `gw_points` over that round's rows, `last_entries` equal
exactly to the set of entry ids attaining that minimum (all ties, none
broken), and `reason` unset. -/
theorem claim_normal_round_min_ties (s : List RoundScore) (ovs : Int → Option Override)
    (f t g : Int) (h1 : f ≤ g) (h2 : g ≤ t)
    (hs : ∃ r ∈ s, r.event = g)
    (hov : ovs g = none ∨ ∃ ov, ovs g = some ov ∧ ov.action = "none") :
    (∃ res ∈ compute_last_by_gw s f t ovs, res.event = g) ∧
    ∀ res ∈ compute_last_by_gw s f t ovs, res.event = g →
      res.reason = none ∧
      ∃ m, res.min_points = some m ∧
        (∃ r ∈ s, r.event = g ∧ r.gw_points = m) ∧
        (∀ r ∈ s, r.event = g → m ≤ r.gw_points) ∧
        (∀ e : Int, e ∈ res.last_entries ↔ ∃ r ∈ s, r.event = g ∧ r.gw_points = m ∧ r.entry = e) := by
  rcases seriesMin_subFor_isSome s g hs with ⟨m, hm⟩
  have hact : ∀ ov, ovs g = some ov → ov.action ≠ "eject" ∧ ov.action ≠ "skip" := by
    intro ov ho
    rcases hov with h | ⟨ov', ho', hact'⟩
    · rw [h] at ho; cases ho
    · rw [ho'] at ho
      cases ho
      rw [hact']
      exact ⟨by decide, by decide⟩
  have hcr := computeRound_normal s ovs g m hm hact
  refine ⟨⟨computeRound s ovs g, mem_compute_last_by_gw s ovs f t g h1 h2,
      computeRound_event s ovs g⟩, ?_⟩
  intro res hres hev
  rw [result_for_round s ovs f t g res hres hev, hcr]
  refine ⟨rfl, m, rfl, (seriesMin_subFor_spec s g m hm).1, (seriesMin_subFor_spec s g m hm).2, ?_⟩
  intro e
  exact mem_lastEntriesFor s g m e

/-- Witness for C1: the spec's worked example, round 5 with scores
10, 5, 5, 20 and no override. -/
theorem claim_normal_round_min_ties_witness :
    (∃ res ∈ compute_last_by_gw [⟨1, 5, 10, 0⟩, ⟨2, 5, 5, 0⟩, ⟨3, 5, 5, 0⟩, ⟨4, 5, 20, 0⟩]
        5 5 (fun _ => none), res.event = 5) ∧
    ∀ res ∈ compute_last_by_gw [⟨1, 5, 10, 0⟩, ⟨2, 5, 5, 0⟩, ⟨3, 5, 5, 0⟩, ⟨4, 5, 20, 0⟩]
        5 5 (fun _ => none), res.event = 5 →
      res.reason = none ∧
      ∃ m, res.min_points = some m ∧
        (∃ r ∈ [⟨1, 5, 10, 0⟩, ⟨2, 5, 5, 0⟩, ⟨3, 5, 5, 0⟩, (⟨4, 5, 20, 0⟩ : RoundScore)],
          r.event = 5 ∧ r.gw_points = m) ∧
        (∀ r ∈ [⟨1, 5, 10, 0⟩, ⟨2, 5, 5, 0⟩, ⟨3, 5, 5, 0⟩, (⟨4, 5, 20, 0⟩ : RoundScore)],
          r.event = 5 → m ≤ r.gw_points) ∧
        (∀ e : Int, e ∈ res.last_entries ↔
          ∃ r ∈ [⟨1, 5, 10, 0⟩, ⟨2, 5, 5, 0⟩, ⟨3, 5, 5, 0⟩, (⟨4, 5, 20, 0⟩ : RoundScore)],
            r.event = 5 ∧ r.gw_points = m ∧ r.entry = e) :=
  claim_normal_round_min_ties [⟨1, 5, 10, 0⟩, ⟨2, 5, 5, 0⟩, ⟨3, 5, 5, 0⟩, ⟨4, 5, 20, 0⟩]
    (fun _ => none) 5 5 5 (by omega) (by omega)
    ⟨⟨1, 5, 10, 0⟩, by decide, rfl⟩ (Or.inl rfl)

/-- C4: a round in range with no score rows at all resolves to
`min_points = none`, `last_entries = []`, `reason = "no-data"`. -/
theorem claim_nodata_round (s : List RoundScore) (ovs : Int → Option Override)
    (f t g : Int) (h1 : f ≤ g) (h2 : g ≤ t) (hs : ∀ r ∈ s, r.event ≠ g) :
    (∃ res ∈ compute_last_by_gw s f t ovs, res.event = g) ∧
    ∀ res ∈ compute_last_by_gw s f t ovs, res.event = g →
      res = { event := g, min_points := none, last_entries := [], reason := some "no-data" } := by
  refine ⟨⟨computeRound s ovs g, mem_compute_last_by_gw s ovs f t g h1 h2,
      computeRound_event s ovs g⟩, ?_⟩
  intro res hres hev
  rw [result_for_round s ovs f t g res hres hev]
  exact computeRound_nodata s ovs g hs

/-- Witness for C4: the spec's worked example, round 6 with no scores. -/
theorem claim_nodata_round_witness :
    (∃ res ∈ compute_last_by_gw [⟨1, 5, 10, 0⟩] 5 6 (fun _ => none), res.event = 6) ∧
    ∀ res ∈ compute_last_by_gw [⟨1, 5, 10, 0⟩] 5 6 (fun _ => none), res.event = 6 →
      res = { event := 6, min_points := none, last_entries := [], reason := some "no-data" } :=
  claim_nodata_round [⟨1, 5, 10, 0⟩] (fun _ => none) 5 6 6 (by omega) (by omega) (by decide)

/-- C2, counterexample: the claim asserts that an `eject` override forces
`reason = "ejected"` regardless of the underlying scores, but on a round
with no score rows the resolver hits the `no-data` early exit before
overrides are consulted, so the override is ignored. -/
theorem claim_override_counterexample :
    (fun g : Int => if g = 1 then some { action := "eject", note := "" } else none) 1
      = some ({ action := "eject", note := "" } : Override) ∧
    compute_last_by_gw [] 1 1
        (fun g : Int => if g = 1 then some { action := "eject", note := "" } else none) =
      [{ event := 1, min_points := none, last_entries := [], reason := some "no-data" }] ∧
    (some "no-data" : Option String) ≠ some "ejected" :=
  ⟨rfl, rfl, by decide⟩

/-- C2, amended: on a round in range with at least one score row, an
`eject` override forces `last_entries = []` with reason `"ejected"` and a
`skip` override forces `last_entries = []` with reason `"skipped"`,
regardless of the scores; on a round with no score rows any override is
ignored and the result is the `no-data` row; an override with action
`none` always yields exactly the result of having no override entry. -/
theorem claim_override_precedence_amended (s : List RoundScore) (ovs : Int → Option Override)
    (f t g : Int) (ov : Override) (h1 : f ≤ g) (h2 : g ≤ t) (ho : ovs g = some ov) :
    (∃ res ∈ compute_last_by_gw s f t ovs, res.event = g) ∧
    ((∃ r ∈ s, r.event = g) → ov.action = "eject" →
        ∀ res ∈ compute_last_by_gw s f t ovs, res.event = g →
          res.last_entries = [] ∧ res.reason = some "ejected") ∧
    ((∃ r ∈ s, r.event = g) → ov.action = "skip" →
        ∀ res ∈ compute_last_by_gw s f t ovs, res.event = g →
          res.last_entries = [] ∧ res.reason = some "skipped") ∧
    ((∀ r ∈ s, r.event ≠ g) →
        ∀ res ∈ compute_last_by_gw s f t ovs, res.event = g →
          res = { event := g, min_points := none, last_entries := [], reason := some "no-data" }) ∧
    (ov.action = "none" →
        ∀ res ∈ compute_last_by_gw s f t ovs, res.event = g →
          res = computeRound s (fun _ => none) g) := by
  refine ⟨⟨computeRound s ovs g, mem_compute_last_by_gw s ovs f t g h1 h2,
    computeRound_event s ovs g⟩, ?_, ?_, ?_, ?_⟩
  · intro hs ha res hres hev
    rcases seriesMin_subFor_isSome s g hs with ⟨m, hm⟩
    rw [result_for_round s ovs f t g res hres hev, computeRound_eject s ovs g m ov hm ho ha]
    exact ⟨rfl, rfl⟩
  · intro hs ha res hres hev
    rcases seriesMin_subFor_isSome s g hs with ⟨m, hm⟩
    rw [result_for_round s ovs f t g res hres hev, computeRound_skip s ovs g m ov hm ho ha]
    exact ⟨rfl, rfl⟩
  · intro hs res hres hev
    rw [result_for_round s ovs f t g res hres hev]
    exact computeRound_nodata s ovs g hs
  · intro ha res hres hev
    rw [result_for_round s ovs f t g res hres hev]
    by_cases hsub : ∀ r ∈ s, r.event ≠ g
    · rw [computeRound_nodata s ovs g hsub, computeRound_nodata s (fun _ => none) g hsub]
    · push_neg at hsub
      rcases hsub with ⟨r, hrs, hev'⟩
      rcases seriesMin_subFor_isSome s g ⟨r, hrs, hev'⟩ with ⟨m, hm⟩
      have hcond1 : ∀ ov', ovs g = some ov' → ov'.action ≠ "eject" ∧ ov'.action ≠ "skip" := by
        intro ov' ho'
        rw [ho] at ho'
        cases ho'
        rw [ha]
        exact ⟨by decide, by decide⟩
      have hcond2 : ∀ ov' : Override,
          (fun _ : Int => (none : Option Override)) g = some ov' →
            ov'.action ≠ "eject" ∧ ov'.action ≠ "skip" := by
        intro ov' ho'
        cases ho'
      rw [computeRound_normal s ovs g m hm hcond1,
        computeRound_normal s (fun _ => none) g m hm hcond2]

/-- Witness for the amended C2: the spec's worked example, round 7 with
scores present and an `eject` override. -/
theorem claim_override_precedence_amended_witness :
    (∃ res ∈ compute_last_by_gw [⟨1, 7, 10, 0⟩] 7 7
        (fun g : Int => if g = 7 then some { action := "eject", note := "" } else none),
      res.event = 7) ∧
    ((∃ r ∈ [(⟨1, 7, 10, 0⟩ : RoundScore)], r.event = 7) → ("eject" : String) = "eject" →
        ∀ res ∈ compute_last_by_gw [⟨1, 7, 10, 0⟩] 7 7
            (fun g : Int => if g = 7 then some { action := "eject", note := "" } else none),
          res.event = 7 → res.last_entries = [] ∧ res.reason = some "ejected") ∧
    ((∃ r ∈ [(⟨1, 7, 10, 0⟩ : RoundScore)], r.event = 7) → ("eject" : String) = "skip" →
        ∀ res ∈ compute_last_by_gw [⟨1, 7, 10, 0⟩] 7 7
            (fun g : Int => if g = 7 then some { action := "eject", note := "" } else none),
          res.event = 7 → res.last_entries = [] ∧ res.reason = some "skipped") ∧
    ((∀ r ∈ [(⟨1, 7, 10, 0⟩ : RoundScore)], r.event ≠ 7) →
        ∀ res ∈ compute_last_by_gw [⟨1, 7, 10, 0⟩] 7 7
            (fun g : Int => if g = 7 then some { action := "eject", note := "" } else none),
          res.event = 7 →
          res = { event := 7, min_points := none, last_entries := [], reason := some "no-data" }) ∧
    (("eject" : String) = "none" →
        ∀ res ∈ compute_last_by_gw [⟨1, 7, 10, 0⟩] 7 7
            (fun g : Int => if g = 7 then some { action := "eject", note := "" } else none),
          res.event = 7 → res = computeRound [⟨1, 7, 10, 0⟩] (fun _ => none) 7) :=
  claim_override_precedence_amended [⟨1, 7, 10, 0⟩]
    (fun g : Int => if g = 7 then some { action := "eject", note := "" } else none)
    7 7 7 { action := "eject", note := "" } (by omega) (by omega) rfl

/-- C5, counterexample: the claim asserts the resolver fails fast on an
override action outside `{none, skip, eject}`, but the resolver's final
`else` branch silently treats the out-of-domain action `"banana"`
exactly like `none`: it returns the normal result, with no error. -/
theorem claim_invalid_action_counterexample :
    compute_last_by_gw [⟨7, 1, 3, 3⟩, ⟨8, 1, 5, 8⟩] 1 1
        (fun g : Int => if g = 1 then some { action := "banana", note := "" } else none) =
      compute_last_by_gw [⟨7, 1, 3, 3⟩, ⟨8, 1, 5, 8⟩] 1 1 (fun _ => none) ∧
    (compute_last_by_gw [⟨7, 1, 3, 3⟩, ⟨8, 1, 5, 8⟩] 1 1
        (fun g : Int => if g = 1 then some { action := "banana", note := "" } else none)).map
        RoundResult.reason = [none] :=
  ⟨rfl, rfl⟩

/-- C5, amended: the resolver performs no action validation; any
override whose action is neither `eject` nor `skip` (including actions
outside `{none, skip, eject}`) is silently treated exactly like having
no override for that round, and the resolver never fails.  Action
validation exists only at the override-store layer (the SQLite `CHECK`
constraint in `get_db`). -/
theorem claim_invalid_action_amended (s : List RoundScore) (ovs : Int → Option Override)
    (g : Int) (ov : Override) (ho : ovs g = some ov)
    (hne : ov.action ≠ "eject") (hns : ov.action ≠ "skip") :
    computeRound s ovs g = computeRound s (fun _ => none) g := by
  by_cases hsub : ∀ r ∈ s, r.event ≠ g
  · rw [computeRound_nodata s ovs g hsub, computeRound_nodata s (fun _ => none) g hsub]
  · push_neg at hsub
    rcases hsub with ⟨r, hrs, hev⟩
    rcases seriesMin_subFor_isSome s g ⟨r, hrs, hev⟩ with ⟨m, hm⟩
    have hcond1 : ∀ ov', ovs g = some ov' → ov'.action ≠ "eject" ∧ ov'.action ≠ "skip" := by
      intro ov' ho'
      rw [ho] at ho'
      cases ho'
      exact ⟨hne, hns⟩
    have hcond2 : ∀ ov' : Override,
        (fun _ : Int => (none : Option Override)) g = some ov' →
          ov'.action ≠ "eject" ∧ ov'.action ≠ "skip" := by
      intro ov' ho'
      cases ho'
    rw [computeRound_normal s ovs g m hm hcond1,
      computeRound_normal s (fun _ => none) g m hm hcond2]

/-- Witness for the amended C5 at the out-of-domain action `"banana"`. -/
theorem claim_invalid_action_amended_witness :
    computeRound [⟨7, 1, 3, 3⟩, ⟨8, 1, 5, 8⟩]
        (fun g : Int => if g = 1 then some { action := "banana", note := "" } else none) 1 =
      computeRound [⟨7, 1, 3, 3⟩, ⟨8, 1, 5, 8⟩] (fun _ => none) 1 :=
  claim_invalid_action_amended [⟨7, 1, 3, 3⟩, ⟨8, 1, 5, 8⟩]
    (fun g : Int => if g = 1 then some { action := "banana", note := "" } else none)
    1 { action := "banana", note := "" } rfl (by decide) (by decide)

/-- C10: every resolver row with `reason = none` has a non-empty
tied-last list — the unset reason only arises from a round with at
least one score row, whose minimum is attained. -/
theorem claim_reason_none_nonempty (s : List RoundScore) (ovs : Int → Option Override)
    (f t : Int) :
    ∀ res ∈ compute_last_by_gw s f t ovs, res.reason = none → res.last_entries ≠ [] := by
  intro res hres hreason
  rcases (compute_last_by_gw_mem_iff s ovs f t res).mp hres with ⟨g, _, _, rfl⟩
  cases hm : seriesMin ((subFor s g).map RoundScore.gw_points) with
  | none =>
    have hnil : subFor s g = [] := List.map_eq_nil_iff.mp ((seriesMin_eq_none _).mp hm)
    rw [computeRound_nodata s ovs g ((subFor_eq_nil_iff s g).mp hnil)] at hreason
    cases hreason
  | some m =>
    cases ho : ovs g with
    | none =>
      rw [computeRound_normal s ovs g m hm (fun ov' ho' => by rw [ho] at ho'; cases ho')]
      exact lastEntriesFor_ne_nil s g m hm
    | some ov =>
      by_cases hej : ov.action = "eject"
      · rw [computeRound_eject s ovs g m ov hm ho hej] at hreason
        cases hreason
      · by_cases hsk : ov.action = "skip"
        · rw [computeRound_skip s ovs g m ov hm ho hsk] at hreason
          cases hreason
        · rw [computeRound_normal s ovs g m hm
            (fun ov' ho' => by rw [ho] at ho'; cases ho'; exact ⟨hej, hsk⟩)]
          exact lastEntriesFor_ne_nil s g m hm

/-- Witness for C10 at a concrete round with a unique lowest scorer. -/
theorem claim_reason_none_nonempty_witness :
    ({ event := 1, min_points := some 3, last_entries := [7], reason := none } : RoundResult)
        ∈ compute_last_by_gw [⟨7, 1, 3, 3⟩, ⟨8, 1, 5, 8⟩] 1 1 (fun _ => none) ∧
    ({ event := 1, min_points := some 3, last_entries := [7], reason := none }
        : RoundResult).last_entries ≠ [] :=
  ⟨by decide,
    claim_reason_none_nonempty [⟨7, 1, 3, 3⟩, ⟨8, 1, 5, 8⟩] (fun _ => none) 1 1
      { event := 1, min_points := some 3, last_entries := [7], reason := none }
      (by decide) rfl⟩

/-! Helper lemmas about the aggregator. -/

/-- Well-formedness of a `RoundResult` reason per the data model: it is
unset or one of the three named reasons (the only values the resolver
produces). -/
def ReasonWF (res : RoundResult) : Prop :=
  res.reason = none ∨ res.reason = some "skipped" ∨ res.reason = some "ejected" ∨
    res.reason = some "no-data"

/-- On a well-formed reason the aggregator's skip test is exactly the
test for an unset reason. -/
theorem keep_eq_reason_none (res : RoundResult) (hwf : ReasonWF res) :
    (!(res.reason == some "ejected" || res.reason == some "skipped"
        || res.reason == some "no-data")) = (res.reason == none) := by
  rcases hwf with h | h | h | h <;> rw [h] <;> rfl

theorem filter_beq_of_nodup (l : List Int) (e : Int) (h : l.Nodup) :
    l.filter (fun x => x == e) = if e ∈ l then [e] else [] := by
  induction l with
  | nil => simp
  | cons x xs ih =>
    rcases List.nodup_cons.mp h with ⟨hx, hxs⟩
    rw [List.filter_cons]
    by_cases hxe : x = e
    · subst hxe
      have hnil : xs.filter (fun y => y == x) = [] := by
        rw [List.filter_eq_nil_iff]
        intro a ha hax
        exact hx ((beq_iff_eq.mp hax) ▸ ha)
      simp [hnil]
    · have hb : (x == e) = false := beq_eq_false_iff_ne.mpr hxe
      have hex : e ≠ x := fun h' => hxe h'.symm
      simp [hb, ih hxs, hex]

theorem last_expanded_cons (res : RoundResult) (rest : List RoundResult) :
    last_expanded (res :: rest) =
      (if (res.reason == some "ejected" || res.reason == some "skipped"
            || res.reason == some "no-data")
        then last_expanded rest
        else res.last_entries.map (fun e => (e, res.event)) ++ last_expanded rest) := by
  rw [last_expanded, List.filter_cons]
  cases h : (res.reason == some "ejected" || res.reason == some "skipped"
      || res.reason == some "no-data") with
  | true => simp [last_expanded]
  | false => simp [last_expanded]

/-- The pairs of `last_expanded` that belong to one member: exactly one
pair per kept round whose tie list holds that member (assuming the tie
lists are duplicate-free, as sets of members are). -/
theorem filter_last_expanded (results : List RoundResult) (e : Int)
    (hnd : ∀ res ∈ results, res.last_entries.Nodup)
    (hwf : ∀ res ∈ results, ReasonWF res) :
    (last_expanded results).filter (fun p => p.1 == e) =
      (results.filter (fun res => res.reason == none && res.last_entries.contains e)).map
        (fun res => (e, res.event)) := by
  induction results with
  | nil => rfl
  | cons res rest ih =>
    have ihr := ih (fun r hr => hnd r (List.mem_cons_of_mem _ hr))
      (fun r hr => hwf r (List.mem_cons_of_mem _ hr))
    have hkeep := keep_eq_reason_none res (hwf res (List.mem_cons_self _ _))
    rw [last_expanded_cons, List.filter_cons]
    cases hno : (res.reason == none) with
    | false =>
      have hskip : (res.reason == some "ejected" || res.reason == some "skipped"
          || res.reason == some "no-data") = true := by
        have hk := hkeep
        rw [hno] at hk
        exact Bool.not_eq_false' .. |>.mp hk
      rw [hskip]
      simpa using ihr
    | true =>
      have hskip : (res.reason == some "ejected" || res.reason == some "skipped"
          || res.reason == some "no-data") = false := by
        have hk := hkeep
        rw [hno] at hk
        exact Bool.not_eq_true' .. |>.mp hk
      rw [hskip]
      simp only [Bool.false_eq_true, if_false, Bool.true_and, List.filter_append,
        List.filter_map]
      have hfil : (res.last_entries.filter ((fun p : Int × Int => p.1 == e) ∘
          (fun e' => (e', res.event)))) = res.last_entries.filter (fun x => x == e) := rfl
      rw [hfil, filter_beq_of_nodup _ e (hnd res (List.mem_cons_self _ _))]
      cases hmem : res.last_entries.contains e with
      | true =>
        rw [if_pos (List.elem_iff.mp hmem)]
        simp [ihr]
      | false =>
        have hnotmem : e ∉ res.last_entries := by
          intro h
          have hc : res.last_entries.contains e = true := List.elem_eq_true_of_mem h
          rw [hmem] at hc
          cases hc
        rw [if_neg hnotmem]
        simp [ihr]

theorem filter_key_nodup (forfeits : List (Int × String)) (k : Int)
    (hf : (forfeits.map Prod.fst).Nodup) :
    forfeits.filter (fun f => f.1 == k) = [] ∨
      ∃ v, forfeits.filter (fun f => f.1 == k) = [(k, v)] := by
  induction forfeits with
  | nil => exact Or.inl rfl
  | cons p rest ih =>
    rw [List.map_cons, List.nodup_cons] at hf
    rcases hf with ⟨hp, hrest⟩
    rw [List.filter_cons]
    by_cases hpk : p.1 = k
    · have hb : (p.1 == k) = true := beq_iff_eq.mpr hpk
      rw [hb]
      have hnil : rest.filter (fun f => f.1 == k) = [] := by
        rw [List.filter_eq_nil_iff]
        intro q hq hqk
        exact hp (List.mem_map.mpr ⟨q, hq, by rw [beq_iff_eq.mp hqk, hpk]⟩)
      rw [hnil]
      exact Or.inr ⟨p.2, by rw [← hpk]; simp⟩
    · have hb : (p.1 == k) = false := beq_eq_false_iff_ne.mpr hpk
      rw [hb]
      simpa using ih hrest

theorem flatMap_singleton_eq_map (l : List Entry) (f : Entry → List OverviewRow)
    (g : Entry → OverviewRow) (h : ∀ a ∈ l, f a = [g a]) : l.flatMap f = l.map g := by
  induction l with
  | nil => rfl
  | cons x xs ih =>
    rw [List.flatMap_cons, h x (List.mem_cons_self _ _),
      ih (fun a ha => h a (List.mem_cons_of_mem _ ha))]
    rfl

/-- Closed form of `merge_overview` when the notes mapping has
duplicate-free keys (as a mapping does): exactly one output row per
entries row. -/
theorem merge_overview_eq_map (entries : List Entry) (results : List RoundResult)
    (forfeits : List (Int × String)) (hf : (forfeits.map Prod.fst).Nodup) :
    merge_overview entries results forfeits = entries.map (fun m =>
      { entry := m.entry, entry_name := m.entry_name, player_name := m.player_name,
        times_last := ((last_expanded results).filter (fun p => p.1 == m.entry)).length,
        last_gws := List.insertionSort (· ≤ ·)
          (((last_expanded results).filter (fun p => p.1 == m.entry)).map Prod.snd),
        forfeits := if forfeits.isEmpty then some ""
          else ((forfeits.filter (fun f => f.1 == m.entry)).head?.map Prod.snd) }) := by
  unfold merge_overview
  refine flatMap_singleton_eq_map entries _ _ (fun m _ => ?_)
  by_cases he : forfeits.isEmpty
  · rw [if_pos he, if_pos he]
  · rw [if_neg he, if_neg he]
    rcases filter_key_nodup forfeits m.entry hf with h | ⟨v, h⟩
    · rw [h]
      rfl
    · rw [h]
      rfl

instance (res : RoundResult) : Decidable (ReasonWF res) := by
  unfold ReasonWF
  infer_instance

theorem sum_indicator_eq_one (keys : List Int) (x : Int) (hk : keys.Nodup) (hx : x ∈ keys) :
    (keys.map (fun k => if x = k then (1 : Nat) else 0)).sum = 1 := by
  induction keys with
  | nil => cases hx
  | cons k ks ih =>
    rcases List.nodup_cons.mp hk with ⟨hk1, hk2⟩
    by_cases h : x = k
    · subst h
      have hz : (ks.map (fun y => if x = y then (1 : Nat) else 0)).sum = 0 := by
        rw [List.sum_eq_zero]
        intro n hn
        rcases List.mem_map.mp hn with ⟨y, hy, rfl⟩
        have hxy : x ≠ y := fun hxy => hk1 (hxy ▸ hy)
        rw [if_neg hxy]
      simp [hz]
    · rcases List.mem_cons.mp hx with h' | h'
      · exact absurd h' h
      · simp [h, ih hk2 h']

/-- Summing, over a duplicate-free key list covering every pair's first
component, the number of pairs with that key accounts for every pair
exactly once. -/
theorem sum_filter_length (keys : List Int) (l : List (Int × Int)) (hk : keys.Nodup)
    (hc : ∀ p ∈ l, p.1 ∈ keys) :
    (keys.map (fun k => (l.filter (fun p => p.1 == k)).length)).sum = l.length := by
  induction l with
  | nil => simp
  | cons p rest ih =>
    have hrec := ih (fun q hq => hc q (List.mem_cons_of_mem _ hq))
    have hsplit : ∀ k : Int, ((p :: rest).filter (fun q => q.1 == k)).length
        = (rest.filter (fun q => q.1 == k)).length + (if p.1 = k then 1 else 0) := by
      intro k
      rw [List.filter_cons]
      by_cases h : p.1 = k
      · simp [h]
      · simp [h, beq_eq_false_iff_ne.mpr h]
    calc (keys.map (fun k => ((p :: rest).filter (fun q => q.1 == k)).length)).sum
        = (keys.map (fun k => (rest.filter (fun q => q.1 == k)).length
            + (if p.1 = k then 1 else 0))).sum := by
          exact congrArg List.sum (List.map_congr_left (fun k _ => hsplit k))
      _ = (keys.map (fun k => (rest.filter (fun q => q.1 == k)).length)).sum
            + (keys.map (fun k => if p.1 = k then (1 : Nat) else 0)).sum := by
          rw [← List.sum_map_add]
      _ = rest.length + 1 := by
          rw [hrec, sum_indicator_eq_one keys p.1 hk (hc p (List.mem_cons_self _ _))]
      _ = (p :: rest).length := by simp

/-- Every pair in `last_expanded` comes from a kept result row whose tie
list holds the pair's member id. -/
theorem last_expanded_fst_mem (results : List RoundResult)
    (hwf : ∀ res ∈ results, ReasonWF res) (p : Int × Int)
    (hp : p ∈ last_expanded results) :
    ∃ res ∈ results, res.reason = none ∧ p.1 ∈ res.last_entries := by
  rw [last_expanded] at hp
  rcases List.mem_flatMap.mp hp with ⟨res, hres, hpmem⟩
  rcases List.mem_filter.mp hres with ⟨hresults, hkeepb⟩
  rcases List.mem_map.mp hpmem with ⟨e, he, rfl⟩
  have hnone : res.reason = none := by
    have hk := keep_eq_reason_none res (hwf res hresults)
    rw [hkeepb] at hk
    exact beq_iff_eq.mp hk.symm
  exact ⟨res, hresults, hnone, he⟩

/-- The kept rows of the aggregator are exactly the rows with an unset
reason, for well-formed reasons. -/
theorem filter_keep_eq_filter_none (results : List RoundResult)
    (hwf : ∀ res ∈ results, ReasonWF res) :
    results.filter (fun row =>
        !(row.reason == some "ejected" || row.reason == some "skipped"
          || row.reason == some "no-data")) =
      results.filter (fun res => res.reason == none) :=
  List.filter_congr (fun res hres => keep_eq_reason_none res (hwf res hres))

/-! Claim theorems about the aggregator. -/

/-- C3: the aggregator returns exactly one summary row per input member
in order (members absent from every tie list included, with zero count
and empty round list; ids appearing in results but not in the member
list are dropped without error); each row's `times_last` counts the
results with unset reason whose tie list holds that member, and
`last_gws` is the ascending sort of those rounds.  Tie lists are assumed
duplicate-free and reasons well-formed, as the data model's sets and
reason domain prescribe, and the notes mapping has duplicate-free keys. -/
theorem claim_aggregator_per_member (entries : List Entry) (results : List RoundResult)
    (forfeits : List (Int × String))
    (hnd : ∀ res ∈ results, res.last_entries.Nodup)
    (hwf : ∀ res ∈ results, ReasonWF res)
    (hf : (forfeits.map Prod.fst).Nodup) :
    ((merge_overview entries results forfeits).map OverviewRow.entry = entries.map Entry.entry) ∧
    ∀ row ∈ merge_overview entries results forfeits,
      row.times_last = (results.filter (fun res => res.reason == none
          && res.last_entries.contains row.entry)).length ∧
      List.Sorted (· ≤ ·) row.last_gws ∧
      row.last_gws.Perm ((results.filter (fun res => res.reason == none
          && res.last_entries.contains row.entry)).map RoundResult.event) := by
  rw [merge_overview_eq_map entries results forfeits hf]
  constructor
  · rw [List.map_map]
    rfl
  · intro row hrow
    rcases List.mem_map.mp hrow with ⟨m, _, rfl⟩
    have hmine := filter_last_expanded results m.entry hnd hwf
    refine ⟨?_, List.sorted_insertionSort _ _, ?_⟩
    · show ((last_expanded results).filter (fun p => p.1 == m.entry)).length = _
      rw [hmine, List.length_map]
    · refine (List.perm_insertionSort _ _).trans ?_
      show (((last_expanded results).filter (fun p => p.1 == m.entry)).map Prod.snd).Perm _
      rw [hmine, List.map_map]
      exact List.Perm.refl _

/-- The results list used by the aggregator witnesses: one tied-last
round and one skipped round. -/
def sampleResultsA : List RoundResult :=
  [{ event := 3, min_points := some 2, last_entries := [1], reason := none },
   { event := 4, min_points := some 1, last_entries := [2, 1], reason := some "skipped" }]

/-- Witness for C3 at a concrete league of two members, one tied-last
round, one skipped round, and a note for member 1 only. -/
theorem claim_aggregator_per_member_witness :
    ((merge_overview [⟨1, "A", "a"⟩, ⟨2, "B", "b"⟩] sampleResultsA
        [(1, "beer")]).map OverviewRow.entry = [1, 2]) ∧
    ∀ row ∈ merge_overview [⟨1, "A", "a"⟩, ⟨2, "B", "b"⟩] sampleResultsA [(1, "beer")],
      row.times_last = (sampleResultsA.filter (fun res => res.reason == none
          && res.last_entries.contains row.entry)).length ∧
      List.Sorted (· ≤ ·) row.last_gws ∧
      row.last_gws.Perm ((sampleResultsA.filter (fun res => res.reason == none
          && res.last_entries.contains row.entry)).map RoundResult.event) :=
  claim_aggregator_per_member [⟨1, "A", "a"⟩, ⟨2, "B", "b"⟩] sampleResultsA
    [(1, "beer")] (by decide) (by decide) (by decide)

/-- C6: the notes join does not default to the empty string.  When the
notes table is non-empty, a member without a note gets a missing value
(pandas `NaN`, here `none`), not `""`; the `""` default is applied only
when the whole notes table is empty.  At the failing input — one member,
no results, a note for a different member — the output note is `none`,
where the claim requires `""`. -/
theorem claim_forfeits_note_default :
    (merge_overview [{ entry := 1, entry_name := "A", player_name := "a" }] [] [(2, "x")]).map
        OverviewRow.forfeits = [none] ∧
    (merge_overview [{ entry := 1, entry_name := "A", player_name := "a" }] [] []).map
        OverviewRow.forfeits = [some ""] ∧
    (none : Option String) ≠ some "" :=
  ⟨rfl, rfl, by decide⟩

/-- C7, counterexample: conservation fails when a tie list names a
member absent from the member list — the aggregator drops its
contribution.  With no members and one tied-last pair, the left sum is
0 and the right sum is 1. -/
theorem claim_conservation_counterexample :
    ((merge_overview []
        [{ event := 1, min_points := some 0, last_entries := [5], reason := none }]
        []).map OverviewRow.times_last).sum = 0 ∧
    ((([{ event := 1, min_points := some 0, last_entries := [5], reason := none }]
        : List RoundResult).filter (fun res => res.reason == none)).map
        (fun res => res.last_entries.length)).sum = 1 ∧
    (0 : Nat) ≠ 1 :=
  ⟨rfl, rfl, by decide⟩

/-- C7, amended: conservation holds when the member list is the
authoritative member set — duplicate-free and covering every id named in
an unset-reason tie list — with well-formed reasons and a duplicate-free
notes mapping: the sum of `times_last` over the output equals the total
tie-list size over results with unset reason. -/
theorem claim_conservation_amended (entries : List Entry) (results : List RoundResult)
    (forfeits : List (Int × String))
    (hwf : ∀ res ∈ results, ReasonWF res)
    (hk : (entries.map Entry.entry).Nodup)
    (hcover : ∀ res ∈ results, res.reason = none → ∀ e ∈ res.last_entries,
        e ∈ entries.map Entry.entry)
    (hf : (forfeits.map Prod.fst).Nodup) :
    ((merge_overview entries results forfeits).map OverviewRow.times_last).sum =
      ((results.filter (fun res => res.reason == none)).map
        (fun res => res.last_entries.length)).sum := by
  rw [merge_overview_eq_map entries results forfeits hf, List.map_map]
  have hcomp : ((entries.map (fun m => ((last_expanded results).filter
      (fun p => p.1 == m.entry)).length)).sum
        = ((entries.map Entry.entry).map (fun k => ((last_expanded results).filter
            (fun p => p.1 == k)).length)).sum) := by
    rw [List.map_map]
    rfl
  have hstep : (List.map (OverviewRow.times_last ∘ fun m =>
      { entry := m.entry, entry_name := m.entry_name, player_name := m.player_name,
        times_last := ((last_expanded results).filter (fun p => p.1 == m.entry)).length,
        last_gws := List.insertionSort (· ≤ ·)
          (((last_expanded results).filter (fun p => p.1 == m.entry)).map Prod.snd),
        forfeits := if forfeits.isEmpty then some ""
          else ((forfeits.filter (fun f => f.1 == m.entry)).head?.map Prod.snd) }) entries).sum
      = (entries.map (fun m => ((last_expanded results).filter
          (fun p => p.1 == m.entry)).length)).sum := rfl
  rw [hstep, hcomp]
  rw [sum_filter_length (entries.map Entry.entry) (last_expanded results) hk ?_]
  · rw [last_expanded, List.length_flatMap, filter_keep_eq_filter_none results hwf]
    exact congrArg List.sum (List.map_congr_left (fun res _ => List.length_map _ _))
  · intro p hp
    rcases last_expanded_fst_mem results hwf p hp with ⟨res, hres, hnone, hmem⟩
    exact hcover res hres hnone p.1 hmem

/-- The results list used by the conservation witness: a tie, a no-data
round, and a skipped round. -/
def sampleResultsB : List RoundResult :=
  [{ event := 3, min_points := some 2, last_entries := [1, 2], reason := none },
   { event := 4, min_points := some 1, last_entries := [], reason := some "no-data" },
   { event := 5, min_points := some 9, last_entries := [2], reason := some "skipped" }]

/-- Witness for the amended C7 at a concrete two-member league with a
tie, a skipped round, and a no-data round. -/
theorem claim_conservation_amended_witness :
    ((merge_overview [⟨1, "A", "a"⟩, ⟨2, "B", "b"⟩] sampleResultsB
        [(2, "pizza")]).map OverviewRow.times_last).sum =
      ((sampleResultsB.filter (fun res => res.reason == none)).map
        (fun res => res.last_entries.length)).sum :=
  claim_conservation_amended [⟨1, "A", "a"⟩, ⟨2, "B", "b"⟩] sampleResultsB
    [(2, "pizza")] (by decide) (by decide) (by decide) (by decide)

/-- C9: the aggregator (and the resolver) is a deterministic pure
function of its arguments — identical inputs always give identical
outputs, and the inputs are immutable values the functions cannot
mutate. -/
theorem claim_purity (entries₁ entries₂ : List Entry) (results₁ results₂ : List RoundResult)
    (forfeits₁ forfeits₂ : List (Int × String)) (s₁ s₂ : List RoundScore)
    (f₁ f₂ t₁ t₂ : Int) (ovs₁ ovs₂ : Int → Option Override)
    (he : entries₁ = entries₂) (hr : results₁ = results₂) (hn : forfeits₁ = forfeits₂)
    (hs : s₁ = s₂) (hfrom : f₁ = f₂) (hto : t₁ = t₂) (ho : ovs₁ = ovs₂) :
    merge_overview entries₁ results₁ forfeits₁ = merge_overview entries₂ results₂ forfeits₂ ∧
    compute_last_by_gw s₁ f₁ t₁ ovs₁ = compute_last_by_gw s₂ f₂ t₂ ovs₂ := by
  subst he hr hn hs hfrom hto ho
  exact ⟨rfl, rfl⟩

/-- Witness for C9 at concrete inputs. -/
theorem claim_purity_witness :
    merge_overview [⟨1, "A", "a"⟩]
        [{ event := 1, min_points := some 3, last_entries := [1], reason := none }]
        [(1, "n")] =
      merge_overview [⟨1, "A", "a"⟩]
        [{ event := 1, min_points := some 3, last_entries := [1], reason := none }]
        [(1, "n")] ∧
    compute_last_by_gw [⟨1, 1, 3, 3⟩] 1 2 (fun _ => none) =
      compute_last_by_gw [⟨1, 1, 3, 3⟩] 1 2 (fun _ => none) :=
  claim_purity [⟨1, "A", "a"⟩] [⟨1, "A", "a"⟩]
    [{ event := 1, min_points := some 3, last_entries := [1], reason := none }]
    [{ event := 1, min_points := some 3, last_entries := [1], reason := none }]
    [(1, "n")] [(1, "n")] [⟨1, 1, 3, 3⟩] [⟨1, 1, 3, 3⟩] 1 1 2 2
    (fun _ => none) (fun _ => none) rfl rfl rfl rfl rfl rfl rfl
